import Mathlib

/-!
Shallow embedding of the rust-arguments crate (src/lib.rs): a declarative
command-line argument parser.  The grammar model (`Arg`, `ArgParser`), the
builder operations, and the single-pass matcher `ArgParser.parse` are
translated directly from the source.  Hash maps are modelled as association
lists with overwrite-on-insert (`insertKV`) and first-match lookup
(`lookupKV`); the two fatal panics in `parse` are modelled as an `Except`
error result (`ParseError`).  Validators (shared closures in the source)
are modelled as plain Lean functions `String → Bool`.
-/

/-- One argument specification, mirroring the Rust struct `Arg`. -/
structure Arg where
  name : String
  short : Option Char
  long : Option String
  takes_value : Bool
  required : Bool
  default : Option String
  validator : Option (String → Bool)

/-- The parse result, mirroring the Rust struct `ArgMatches`. -/
structure ArgMatches where
  values : List (String × String)
  flags : List (String × Bool)
  positionals : List String
deriving DecidableEq

/-- The two fatal conditions of `parse`, which in the source terminate the
process.  `invalidValue` carries the long alias (for a long option) or the
two-character string of a dash followed by the short character (for a short
option), matching the messages in the source; the missing-required case
carries the logical name of the argument. -/
inductive ParseError where
  | invalidValue (which : String)
  | missingRequiredArgument (name : String)
deriving DecidableEq

deriving instance DecidableEq for Except

/-- A grammar node, mirroring the Rust struct `ArgParser`: an ordered
argument list plus a subcommand map (modelled as an association list). -/
inductive ArgParser : Type where
  | mk (args : List Arg) (subcommands : List (String × ArgParser)) : ArgParser

def ArgParser.args : ArgParser → List Arg
  | .mk a _ => a

def ArgParser.subcommands : ArgParser → List (String × ArgParser)
  | .mk _ s => s

/-- Association-list lookup, modelling hash-map key lookup. -/
def lookupKV {α : Type} (k : String) : List (String × α) → Option α
  | [] => none
  | (k2, v) :: rest => if k2 = k then some v else lookupKV k rest

/-- Association-list insert with overwrite, modelling hash-map insert. -/
def insertKV {α : Type} (k : String) (v : α) : List (String × α) → List (String × α)
  | [] => [(k, v)]
  | (k2, v2) :: rest => if k2 = k then (k, v) :: rest else (k2, v2) :: insertKV k v rest

/-- Mutate the first argument whose `name` matches, modelling the pattern
`self.args.iter_mut().find(|a| a.name == name)` followed by a field update;
when no argument matches, the list is unchanged. -/
def updateFirst (name : String) (f : Arg → Arg) : List Arg → List Arg
  | [] => []
  | a :: rest => if a.name = name then f a :: rest else a :: updateFirst name f rest

/-- Constructor `ArgParser::new`. -/
def ArgParser.new : ArgParser := .mk [] []

/-- Builder `ArgParser::arg`: push a fresh argument with all-default fields. -/
def ArgParser.arg (p : ArgParser) (name : String) : ArgParser :=
  .mk (p.args ++ [{ name := name, short := none, long := none, takes_value := false,
                    required := false, default := none, validator := none }]) p.subcommands

/-- Builder `ArgParser::short`: set the single-character alias on the first
argument named `name` (no-op when absent). -/
def ArgParser.short (p : ArgParser) (name : String) (c : Char) : ArgParser :=
  .mk (updateFirst name (fun a => { a with short := some c }) p.args) p.subcommands

/-- Builder `ArgParser::long`: set the long alias on the first argument
named `name` (no-op when absent). -/
def ArgParser.long (p : ArgParser) (name : String) (s : String) : ArgParser :=
  .mk (updateFirst name (fun a => { a with long := some s }) p.args) p.subcommands

/-- Builder `ArgParser::takes_value` (no-op when `name` is absent). -/
def ArgParser.takes_value (p : ArgParser) (name : String) : ArgParser :=
  .mk (updateFirst name (fun a => { a with takes_value := true }) p.args) p.subcommands

/-- Builder `ArgParser::required` (no-op when `name` is absent). -/
def ArgParser.required (p : ArgParser) (name : String) : ArgParser :=
  .mk (updateFirst name (fun a => { a with required := true }) p.args) p.subcommands

/-- Builder `ArgParser::default` (no-op when `name` is absent). -/
def ArgParser.default (p : ArgParser) (name : String) (d : String) : ArgParser :=
  .mk (updateFirst name (fun a => { a with default := some d }) p.args) p.subcommands

/-- Builder `ArgParser::validator` (no-op when `name` is absent). -/
def ArgParser.validator (p : ArgParser) (name : String) (f : String → Bool) : ArgParser :=
  .mk (updateFirst name (fun a => { a with validator := some f }) p.args) p.subcommands

/-- Builder `ArgParser::subcommand`: insert/overwrite the child grammar
under `name`. -/
def ArgParser.subcommand (p : ArgParser) (name : String) (child : ArgParser) : ArgParser :=
  .mk p.args (insertKV name child p.subcommands)

/-- Rust `arg.starts_with(pre)` on strings (the byte prefixes used in the
source are only the ASCII strings of one or two dashes, so character-prefix
is equivalent). -/
def strStarts (s pre : String) : Bool := pre.data.isPrefixOf s.data

/-- Rust slicing `&arg[2..]`: drop leading characters (only used after a
match on the two-dash ASCII prefix, where byte and character indices
coincide). -/
def strDrop (s : String) (n : Nat) : String := ⟨s.data.drop n⟩

/-- Rust `self.args.iter().find(|a| a.long.as_deref() == Some(name))`. -/
def findLong : List Arg → String → Option Arg
  | [], _ => none
  | a :: rest, name => if a.long = some name then some a else findLong rest name

/-- Rust `self.args.iter().find(|a| a.short == Some(c))`. -/
def findShort : List Arg → Char → Option Arg
  | [], _ => none
  | a :: rest, c => if a.short = some c then some a else findShort rest c

/-- The validator test applied to a candidate value: `true` when no
validator is attached, otherwise the verdict of the validator. -/
def validatorOk (a : Arg) (v : String) : Bool :=
  match a.validator with
  | some f => f v
  | none => true

/-- Outcome of the token-walking loop of `parse`: a fatal error, a
recognized subcommand (short-circuiting the walk), or normal completion
with the three accumulators. -/
inductive StepOut where
  | fail (e : ParseError)
  | sub (child : ArgParser)
  | done (values : List (String × String)) (flags : List (String × Bool))
      (positionals : List String)

/-- The inner loop over the characters of a short cluster: each character
is looked up independently against `short`; a matched value-taking option
consumes the next whole token from the main iterator (`rest`); unmatched
characters are skipped.  Returns the remaining main token stream and the
updated accumulators, or the validator error. -/
def clusterLoop (pargs : List Arg) :
    List Char → List String → List (String × String) → List (String × Bool) →
    Except ParseError (List String × List (String × String) × List (String × Bool))
  | [], rest, values, flags => .ok (rest, values, flags)
  | c :: cs, rest, values, flags =>
    match findShort pargs c with
    | none => clusterLoop pargs cs rest values flags
    | some a =>
      if a.takes_value then
        match rest with
        | [] => clusterLoop pargs cs [] values flags
        | v :: rest2 =>
          if validatorOk a v then
            clusterLoop pargs cs rest2 (insertKV a.name v values) flags
          else
            .error (.invalidValue (String.mk ['-', c]))
      else
        clusterLoop pargs cs rest values (insertKV a.name true flags)

/-- The main token-walking loop of `parse`, over the tokens after the
skipped index 0.  The `Nat` argument is a structural bound on the number of
iterations; `parse` supplies the token-list length, which always suffices
since every iteration consumes at least one token (the fuel-exhausted arm
is unreachable from `parse`). -/
def parseLoop (p : ArgParser) :
    Nat → List String → List (String × String) → List (String × Bool) → List String → StepOut
  | _, [], values, flags, positionals => .done values flags positionals
  | 0, _ :: _, values, flags, positionals => .done values flags positionals
  | Nat.succ n, tok :: rest, values, flags, positionals =>
    if strStarts tok "--" then
      match findLong p.args (strDrop tok 2) with
      | none => parseLoop p n rest values flags positionals
      | some a =>
        if a.takes_value then
          match rest with
          | [] => parseLoop p n [] values flags positionals
          | v :: rest2 =>
            if validatorOk a v then
              parseLoop p n rest2 (insertKV a.name v values) flags positionals
            else
              .fail (.invalidValue (strDrop tok 2))
        else
          parseLoop p n rest values (insertKV a.name true flags) positionals
    else if strStarts tok "-" then
      match clusterLoop p.args (tok.data.drop 1) rest values flags with
      | .error e => .fail e
      | .ok (rest2, values2, flags2) => parseLoop p n rest2 values2 flags2 positionals
    else
      match lookupKV tok p.subcommands with
      | some child => .sub child
      | none => parseLoop p n rest values flags (positionals ++ [tok])

/-- The post-pass finalization loop: for every argument, if it is required
and has no entry in `values`, substitute its default or fail with the
missing-required error.  `takes_value` is not consulted. -/
def finalizeArgs : List Arg → List (String × String) → Except ParseError (List (String × String))
  | [], values => .ok values
  | a :: rest, values =>
    if a.required && (lookupKV a.name values).isNone then
      match a.default with
      | some d => finalizeArgs rest (insertKV a.name d values)
      | none => .error (.missingRequiredArgument a.name)
    else
      finalizeArgs rest values

/-- Package the accumulators into the final `ArgMatches` after running
finalization. -/
def finishParse (p : ArgParser) (values : List (String × String))
    (flags : List (String × Bool)) (positionals : List String) :
    Except ParseError ArgMatches :=
  match finalizeArgs p.args values with
  | .error e => .error e
  | .ok v => .ok ⟨v, flags, positionals⟩

/-- The matcher `ArgParser::parse`: skip index 0, walk the rest with
`parseLoop`; when a subcommand token is matched, the child parser (removed
from the mapping, which is unobservable since the parser is consumed) is
invoked recursively on `args[1..]` (the input minus the skipped index 0)
and its result returned unchanged; otherwise finalization runs on the
accumulators. -/
def ArgParser.parse : ArgParser → List String → Except ParseError ArgMatches
  | p, [] => finishParse p [] [] []
  | p, _ :: t =>
    match parseLoop p t.length t [] [] [] with
    | .fail e => .error e
    | .sub child => ArgParser.parse child t
    | .done values flags positionals => finishParse p values flags positionals

/-- Reachability in the grammar tree: `q` is reachable from `p` by
following zero or more registered subcommand edges. -/
inductive Descendant : ArgParser → ArgParser → Prop where
  | refl (p : ArgParser) : Descendant p p
  | step (p q : ArgParser) (k : String) (c : ArgParser) :
      lookupKV k p.subcommands = some c → Descendant c q → Descendant p q

/-- Spec-side classification, following the words of the specification
rather than the source (a second definition, for comparison with the
matcher): the tokens a short cluster leaves in the main stream.  For each
cluster character matched to a registered value-taking short option the
next whole token is consumed (nothing when the stream is exhausted); every
other character consumes nothing. -/
def specConsumeCluster (pargs : List Arg) : List Char → List String → List String
  | [], rest => rest
  | c :: cs, rest =>
    match findShort pargs c with
    | none => specConsumeCluster pargs cs rest
    | some a =>
      if a.takes_value then specConsumeCluster pargs cs rest.tail
      else specConsumeCluster pargs cs rest

/-- Spec-side classification of positionals, following the words of the
specification (a second definition, for comparison with the matcher):
walking the tokens after the skipped index 0 in order, a two-dash token is
a long option (excluded; when it names a registered value-taking option
the next token is consumed as its value and excluded too), a one-dash
token is a short cluster (excluded, consuming one following token per
matched value-taking character), a token naming a registered subcommand
stops the walk (the remaining tokens belong to the child parse), and every
other token is a positional.  The `Nat` is the same structural bound used
by `parseLoop`. -/
def specPositionals (pargs : List Arg) (subs : List (String × ArgParser)) :
    Nat → List String → List String
  | _, [] => []
  | 0, _ :: _ => []
  | Nat.succ n, tok :: rest =>
    if strStarts tok "--" then
      match findLong pargs (strDrop tok 2) with
      | none => specPositionals pargs subs n rest
      | some a =>
        if a.takes_value then specPositionals pargs subs n rest.tail
        else specPositionals pargs subs n rest
    else if strStarts tok "-" then
      specPositionals pargs subs n (specConsumeCluster pargs (tok.data.drop 1) rest)
    else if (lookupKV tok subs).isSome then
      []
    else
      tok :: specPositionals pargs subs n rest

/-- Child grammar of the subcommand example: one valued long option. -/
def buildChild : ArgParser :=
  ((ArgParser.new.arg "target").long "target" "target").takes_value "target"

/-- Parent grammar of the subcommand example. -/
def buildParent : ArgParser := ArgParser.new.subcommand "build" buildChild

/-- A grammar with a single required boolean flag (no value, no default). -/
def vGram : ArgParser := ((ArgParser.new.arg "v").short "v" 'v').required "v"

/-- A grammar with a single required non-valued argument carrying a default. -/
def dGram : ArgParser := ((ArgParser.new.arg "v").required "v").default "v" "d"

/-- A grammar with a valued short option and a boolean short flag. -/
def xyGram : ArgParser :=
  ((((ArgParser.new.arg "x").short "x" 'x').takes_value "x").arg "y").short "y" 'y'

/-- A grammar with a single valued long option. -/
def longGram : ArgParser := ((ArgParser.new.arg "o").long "o" "o").takes_value "o"

/-- The valued long option of `longGram`, additionally marked required. -/
def reqGram : ArgParser := longGram.required "o"

/-! Helper lemmas about the association-list operations, the lookups, and
the three loops of the matcher. -/

theorem lookupKV_insertKV {α : Type} (k k2 : String) (v : α) (l : List (String × α)) :
    lookupKV k (insertKV k2 v l) = if k2 = k then some v else lookupKV k l := by
  induction l with
  | nil => simp [insertKV, lookupKV]
  | cons hd t ih =>
    obtain ⟨k3, v3⟩ := hd
    simp only [insertKV]
    split
    · next h3 =>
      subst h3
      simp only [lookupKV]
      split <;> simp [lookupKV, *]
    · next h3 =>
      simp only [lookupKV]
      split
      · next h4 =>
        have hne : ¬ (k2 = k) := fun he => h3 (h4.trans he.symm)
        simp [hne]
      · next h4 => rw [ih]

theorem findShort_mem (pargs : List Arg) (c : Char) (a : Arg)
    (h : findShort pargs c = some a) : a ∈ pargs := by
  induction pargs with
  | nil => simp [findShort] at h
  | cons hd t ih =>
    simp only [findShort] at h
    split at h
    · simp_all
    · exact List.mem_cons_of_mem _ (ih h)

theorem findLong_mem (pargs : List Arg) (s : String) (a : Arg)
    (h : findLong pargs s = some a) : a ∈ pargs := by
  induction pargs with
  | nil => simp [findLong] at h
  | cons hd t ih =>
    simp only [findLong] at h
    split at h
    · simp_all
    · exact List.mem_cons_of_mem _ (ih h)

theorem clusterLoop_sublist (pargs : List Arg) (cs : List Char) :
    ∀ rest values flags rest2 values2 flags2,
    clusterLoop pargs cs rest values flags = .ok (rest2, values2, flags2) →
    rest2.Sublist rest := by
  induction cs with
  | nil =>
    intro rest values flags rest2 values2 flags2 h
    simp only [clusterLoop] at h
    injection h with h
    injection h with h1 h2
    subst h1
    exact List.Sublist.refl _
  | cons c cs ih =>
    intro rest values flags rest2 values2 flags2 h
    simp only [clusterLoop] at h
    split at h
    · exact ih _ _ _ _ _ _ h
    · split at h
      · split at h
        · exact ih _ _ _ _ _ _ h
        · split at h
          · exact (ih _ _ _ _ _ _ h).trans (List.sublist_cons_self _ _)
          · exact absurd h (by simp)
      · exact ih _ _ _ _ _ _ h

theorem clusterLoop_inv (pargs : List Arg) (cs : List Char) :
    ∀ rest values flags rest2 values2 flags2,
    clusterLoop pargs cs rest values flags = .ok (rest2, values2, flags2) →
    (∀ k, (lookupKV k values2).isSome = true →
      (lookupKV k values).isSome = true ∨
      ∃ a ∈ pargs, a.name = k ∧ a.takes_value = true) ∧
    (∀ k, (lookupKV k flags2).isSome = true →
      (lookupKV k flags).isSome = true ∨
      ∃ a ∈ pargs, a.name = k ∧ a.takes_value = false) := by
  induction cs with
  | nil =>
    intro rest values flags rest2 values2 flags2 h
    simp only [clusterLoop, Except.ok.injEq, Prod.mk.injEq] at h
    obtain ⟨h1, h2, h3⟩ := h
    subst h2 h3
    exact ⟨fun k hk => .inl hk, fun k hk => .inl hk⟩
  | cons c cs ih =>
    intro rest values flags rest2 values2 flags2 h
    simp only [clusterLoop] at h
    split at h
    · exact ih _ _ _ _ _ _ h
    · rename_i a ha
      have hmem := findShort_mem pargs c a ha
      split at h
      · rename_i htv
        split at h
        · exact ih _ _ _ _ _ _ h
        · split at h
          · obtain ⟨ih1, ih2⟩ := ih _ _ _ _ _ _ h
            refine ⟨fun k hk => ?_, ih2⟩
            rcases ih1 k hk with hin | hex
            · rw [lookupKV_insertKV] at hin
              by_cases he : a.name = k
              · exact .inr ⟨a, hmem, he, htv⟩
              · rw [if_neg he] at hin
                exact .inl hin
            · exact .inr hex
          · exact absurd h (by simp)
      · rename_i htv
        obtain ⟨ih1, ih2⟩ := ih _ _ _ _ _ _ h
        refine ⟨ih1, fun k hk => ?_⟩
        rcases ih2 k hk with hin | hex
        · rw [lookupKV_insertKV] at hin
          by_cases he : a.name = k
          · exact .inr ⟨a, hmem, he, by simpa using htv⟩
          · rw [if_neg he] at hin
            exact .inl hin
        · exact .inr hex

theorem parseLoop_inv (p : ArgParser) (n : Nat) :
    ∀ toks values flags pos values2 flags2 pos2,
    parseLoop p n toks values flags pos = .done values2 flags2 pos2 →
    (∀ k, (lookupKV k values2).isSome = true →
      (lookupKV k values).isSome = true ∨
      ∃ a ∈ p.args, a.name = k ∧ a.takes_value = true) ∧
    (∀ k, (lookupKV k flags2).isSome = true →
      (lookupKV k flags).isSome = true ∨
      ∃ a ∈ p.args, a.name = k ∧ a.takes_value = false) ∧
    ∃ l, pos2 = pos ++ l ∧ l.Sublist toks ∧
      ∀ x ∈ l, strStarts x "-" = false ∧ lookupKV x p.subcommands = none := by
  induction n with
  | zero =>
    intro toks values flags pos values2 flags2 pos2 h
    cases toks <;>
      · simp only [parseLoop, StepOut.done.injEq] at h
        obtain ⟨h1, h2, h3⟩ := h
        subst h1 h2 h3
        exact ⟨fun k hk => .inl hk, fun k hk => .inl hk,
          [], by simp, List.nil_sublist _, by simp⟩
  | succ n ih =>
    intro toks values flags pos values2 flags2 pos2 h
    cases toks with
    | nil =>
      simp only [parseLoop, StepOut.done.injEq] at h
      obtain ⟨h1, h2, h3⟩ := h
      subst h1 h2 h3
      exact ⟨fun k hk => .inl hk, fun k hk => .inl hk,
        [], by simp, List.nil_sublist _, by simp⟩
    | cons tok rest =>
      simp only [parseLoop] at h
      split at h
      · -- long-option branch
        split at h
        · -- unknown long alias: skipped
          obtain ⟨h1, h2, l, hl1, hl2, hl3⟩ := ih _ _ _ _ _ _ _ h
          exact ⟨h1, h2, l, hl1, hl2.trans (List.sublist_cons_self _ _), hl3⟩
        · rename_i a ha
          split at h
          · rename_i htv
            split at h
            · -- valued option at end of input: skipped
              simp only [StepOut.done.injEq] at h
              obtain ⟨h1, h2, h3⟩ := h
              subst h1 h2 h3
              exact ⟨fun k hk => .inl hk, fun k hk => .inl hk,
                [], by simp, List.nil_sublist _, by simp⟩
            · split at h
              · -- value consumed
                obtain ⟨h1, h2, l, hl1, hl2, hl3⟩ := ih _ _ _ _ _ _ _ h
                refine ⟨fun k hk => ?_, h2, l, hl1,
                  (hl2.trans (List.sublist_cons_self _ _)).trans (List.sublist_cons_self _ _), hl3⟩
                rcases h1 k hk with hin | hex
                · rw [lookupKV_insertKV] at hin
                  by_cases he : a.name = k
                  · exact .inr ⟨a, findLong_mem _ _ _ ha, he, htv⟩
                  · rw [if_neg he] at hin
                    exact .inl hin
                · exact .inr hex
              · exact absurd h (by simp)
          · rename_i htv
            -- flag set
            obtain ⟨h1, h2, l, hl1, hl2, hl3⟩ := ih _ _ _ _ _ _ _ h
            refine ⟨h1, fun k hk => ?_, l, hl1, hl2.trans (List.sublist_cons_self _ _), hl3⟩
            rcases h2 k hk with hin | hex
            · rw [lookupKV_insertKV] at hin
              by_cases he : a.name = k
              · exact .inr ⟨a, findLong_mem _ _ _ ha, he, by simpa using htv⟩
              · rw [if_neg he] at hin
                exact .inl hin
            · exact .inr hex
      · rename_i hd1
        split at h
        · -- short-cluster branch
          split at h
          · exact absurd h (by simp)
          · rename_i r2 v2 f2 hcl
            obtain ⟨h1, h2, l, hl1, hl2, hl3⟩ := ih _ _ _ _ _ _ _ h
            obtain ⟨c1, c2⟩ := clusterLoop_inv p.args _ _ _ _ _ _ _ hcl
            have hsub := clusterLoop_sublist p.args _ _ _ _ _ _ _ hcl
            refine ⟨fun k hk => ?_, fun k hk => ?_,
              l, hl1, (hl2.trans hsub).trans (List.sublist_cons_self _ _), hl3⟩
            · rcases h1 k hk with hin | hex
              · exact c1 k hin
              · exact .inr hex
            · rcases h2 k hk with hin | hex
              · exact c2 k hin
              · exact .inr hex
        · -- subcommand / positional branch
          rename_i hd2
          split at h
          · exact absurd h (by simp)
          · rename_i hnone
            obtain ⟨h1, h2, l, hl1, hl2, hl3⟩ := ih _ _ _ _ _ _ _ h
            refine ⟨h1, h2, tok :: l, by rw [hl1]; simp, hl2.cons₂ _, ?_⟩
            intro x hx
            rcases List.mem_cons.mp hx with he | hm
            · subst he
              exact ⟨by simpa using hd2, hnone⟩
            · exact hl3 x hm

theorem parseLoop_sub (p : ArgParser) (n : Nat) :
    ∀ toks values flags pos child,
    parseLoop p n toks values flags pos = .sub child →
    ∃ k, lookupKV k p.subcommands = some child := by
  induction n with
  | zero =>
    intro toks values flags pos child h
    cases toks <;> simp only [parseLoop] at h <;> exact StepOut.noConfusion h
  | succ n ih =>
    intro toks values flags pos child h
    cases toks with
    | nil =>
      simp only [parseLoop] at h
      exact StepOut.noConfusion h
    | cons tok rest =>
      simp only [parseLoop] at h
      split at h
      · split at h
        · exact ih _ _ _ _ _ h
        · split at h
          · split at h
            · exact StepOut.noConfusion h
            · split at h
              · exact ih _ _ _ _ _ h
              · exact absurd h (by simp)
          · exact ih _ _ _ _ _ h
      · split at h
        · split at h
          · exact absurd h (by simp)
          · exact ih _ _ _ _ _ h
        · split at h
          · rename_i hsome
            simp only [StepOut.sub.injEq] at h
            subst h
            exact ⟨tok, hsome⟩
          · exact ih _ _ _ _ _ h

theorem finalizeArgs_mono (pargs : List Arg) :
    ∀ values values2 k, (lookupKV k values).isSome = true →
    finalizeArgs pargs values = .ok values2 →
    (lookupKV k values2).isSome = true := by
  induction pargs with
  | nil =>
    intro values values2 k hk h
    simp only [finalizeArgs, Except.ok.injEq] at h
    subst h
    exact hk
  | cons a rest ih =>
    intro values values2 k hk h
    simp only [finalizeArgs] at h
    split at h
    · split at h
      · refine ih _ _ _ ?_ h
        rw [lookupKV_insertKV]
        split
        · rfl
        · exact hk
      · exact absurd h (by simp)
    · exact ih _ _ _ hk h

theorem finalizeArgs_required (pargs : List Arg) :
    ∀ values values2, finalizeArgs pargs values = .ok values2 →
    ∀ a ∈ pargs, a.required = true → (lookupKV a.name values2).isSome = true := by
  induction pargs with
  | nil =>
    intro values values2 h a ha
    simp at ha
  | cons a0 rest ih =>
    intro values values2 h a ha hreq
    simp only [finalizeArgs] at h
    rcases List.mem_cons.mp ha with he | hm
    · subst he
      split at h
      · split at h
        · rename_i hd
          refine finalizeArgs_mono rest _ _ _ ?_ h
          rw [lookupKV_insertKV]
          simp
        · exact absurd h (by simp)
      · rename_i hcond
        have hsome : (lookupKV a.name values).isSome = true := by
          rcases hlook : lookupKV a.name values with _ | v
          · exact absurd (by simp [hreq, hlook]) hcond
          · simp
        exact finalizeArgs_mono rest _ _ _ hsome h
    · split at h
      · split at h
        · exact ih _ _ h a hm hreq
        · exact absurd h (by simp)
      · exact ih _ _ h a hm hreq

theorem finalizeArgs_inv (pargs : List Arg) :
    ∀ values values2, finalizeArgs pargs values = .ok values2 →
    ∀ k, (lookupKV k values2).isSome = true →
    (lookupKV k values).isSome = true ∨
    ∃ a ∈ pargs, a.name = k ∧ a.required = true ∧ a.default.isSome = true := by
  induction pargs with
  | nil =>
    intro values values2 h k hk
    simp only [finalizeArgs, Except.ok.injEq] at h
    subst h
    exact .inl hk
  | cons a rest ih =>
    intro values values2 h k hk
    simp only [finalizeArgs] at h
    split at h
    · rename_i hcond
      split at h
      · rename_i d hd
        rcases ih _ _ h k hk with hin | hex
        · rw [lookupKV_insertKV] at hin
          by_cases he : a.name = k
          · refine .inr ⟨a, List.mem_cons_self _ _, he, ?_, by simp [hd]⟩
            exact (Bool.and_eq_true _ _ |>.mp hcond).1
          · rw [if_neg he] at hin
            exact .inl hin
        · obtain ⟨a2, ha2, rest2⟩ := hex
          exact .inr ⟨a2, List.mem_cons_of_mem _ ha2, rest2⟩
      · exact absurd h (by simp)
    · rcases ih _ _ h k hk with hin | hex
      · exact .inl hin
      · obtain ⟨a2, ha2, rest2⟩ := hex
        exact .inr ⟨a2, List.mem_cons_of_mem _ ha2, rest2⟩

theorem clusterLoop_rest_exact (pargs : List Arg) (cs : List Char) :
    ∀ rest values flags rest2 values2 flags2,
    clusterLoop pargs cs rest values flags = .ok (rest2, values2, flags2) →
    rest2 = specConsumeCluster pargs cs rest := by
  induction cs with
  | nil =>
    intro rest values flags rest2 values2 flags2 h
    simp only [clusterLoop, Except.ok.injEq, Prod.mk.injEq] at h
    obtain ⟨h1, h2, h3⟩ := h
    subst h1
    simp [specConsumeCluster]
  | cons c cs ih =>
    intro rest values flags rest2 values2 flags2 h
    simp only [clusterLoop] at h
    split at h
    · rename_i hfs
      rw [show specConsumeCluster pargs (c :: cs) rest = specConsumeCluster pargs cs rest from
        by simp [specConsumeCluster, hfs]]
      exact ih _ _ _ _ _ _ h
    · rename_i a hfs
      split at h
      · rename_i htv
        split at h
        · rw [show specConsumeCluster pargs (c :: cs) [] = specConsumeCluster pargs cs [] from
            by simp [specConsumeCluster, hfs, htv]]
          exact ih _ _ _ _ _ _ h
        · split at h
          · rename_i v r2 hval
            rw [show specConsumeCluster pargs (c :: cs) (v :: r2) =
                specConsumeCluster pargs cs r2 from
              by simp [specConsumeCluster, hfs, htv]]
            exact ih _ _ _ _ _ _ h
          · exact absurd h (by simp)
      · rename_i htv
        rw [show specConsumeCluster pargs (c :: cs) rest = specConsumeCluster pargs cs rest from
          by simp [specConsumeCluster, hfs, htv]]
        exact ih _ _ _ _ _ _ h

theorem parseLoop_pos_exact (p : ArgParser) (n : Nat) :
    ∀ toks values flags pos values2 flags2 pos2,
    parseLoop p n toks values flags pos = .done values2 flags2 pos2 →
    pos2 = pos ++ specPositionals p.args p.subcommands n toks := by
  induction n with
  | zero =>
    intro toks values flags pos values2 flags2 pos2 h
    cases toks <;>
      · simp only [parseLoop, StepOut.done.injEq] at h
        obtain ⟨h1, h2, h3⟩ := h
        subst h3
        simp [specPositionals]
  | succ n ih =>
    intro toks values flags pos values2 flags2 pos2 h
    cases toks with
    | nil =>
      simp only [parseLoop, StepOut.done.injEq] at h
      obtain ⟨h1, h2, h3⟩ := h
      subst h3
      simp [specPositionals]
    | cons tok rest =>
      simp only [parseLoop] at h
      split at h
      · rename_i hd1
        split at h
        · rename_i hfl
          rw [show specPositionals p.args p.subcommands (n + 1) (tok :: rest) =
              specPositionals p.args p.subcommands n rest from by
            simp [specPositionals, hd1, hfl]]
          exact ih _ _ _ _ _ _ _ h
        · rename_i a ha
          split at h
          · rename_i htv
            split at h
            · simp only [StepOut.done.injEq] at h
              obtain ⟨h1, h2, h3⟩ := h
              subst h3
              simp [specPositionals, hd1, ha, htv]
            · split at h
              · rename_i v r2 hval
                rw [show specPositionals p.args p.subcommands (n + 1) (tok :: v :: r2) =
                    specPositionals p.args p.subcommands n r2 from by
                  simp [specPositionals, hd1, ha, htv]]
                exact ih _ _ _ _ _ _ _ h
              · exact absurd h (by simp)
          · rename_i htv
            rw [show specPositionals p.args p.subcommands (n + 1) (tok :: rest) =
                specPositionals p.args p.subcommands n rest from by
              simp [specPositionals, hd1, ha, htv]]
            exact ih _ _ _ _ _ _ _ h
      · rename_i hd1
        split at h
        · rename_i hd2
          split at h
          · exact absurd h (by simp)
          · rename_i r2 v2 f2 hcl
            rw [show specPositionals p.args p.subcommands (n + 1) (tok :: rest) =
                specPositionals p.args p.subcommands n
                  (specConsumeCluster p.args (tok.data.drop 1) rest) from by
              simp [specPositionals, hd1, hd2]]
            rw [← clusterLoop_rest_exact p.args _ _ _ _ _ _ _ hcl]
            exact ih _ _ _ _ _ _ _ h
        · rename_i hd2
          split at h
          · exact absurd h (by simp)
          · rename_i hnone
            rw [show specPositionals p.args p.subcommands (n + 1) (tok :: rest) =
                tok :: specPositionals p.args p.subcommands n rest from by
              simp [specPositionals, hd1, hd2, hnone]]
            rw [ih _ _ _ _ _ _ _ h]
            simp

theorem parse_ok_elim :
    ∀ (T : List String) (p : ArgParser) (m : ArgMatches),
    ArgParser.parse p T = .ok m →
    ∃ q toks values flags pos, Descendant p q ∧ toks.IsSuffix T ∧
      parseLoop q toks.length toks [] [] [] = .done values flags pos ∧
      finishParse q values flags pos = .ok m := by
  intro T
  induction T with
  | nil =>
    intro p m h
    exact ⟨p, [], [], [], [], .refl p, List.nil_suffix, rfl, h⟩
  | cons a t ih =>
    intro p m h
    simp only [ArgParser.parse] at h
    split at h
    · exact absurd h (by simp)
    · rename_i child hsub
      obtain ⟨q, toks, values, flags, pos, hd, hs, hp, hf⟩ := ih child m h
      obtain ⟨k, hk⟩ := parseLoop_sub p t.length _ _ _ _ _ hsub
      exact ⟨q, toks, values, flags, pos, .step p q k child hk hd,
        hs.trans (List.suffix_cons _ _), hp, hf⟩
    · rename_i values flags pos hdone
      exact ⟨p, t, values, flags, pos, .refl p, List.suffix_cons _ _, hdone, h⟩

theorem updateFirst_noop (name : String) (f : Arg → Arg) (l : List Arg)
    (h : ∀ a ∈ l, a.name ≠ name) : updateFirst name f l = l := by
  induction l with
  | nil => rfl
  | cons a rest ih =>
    simp only [updateFirst]
    rw [if_neg (h a (List.mem_cons_self _ _)), ih (fun a2 ha2 => h a2 (List.mem_cons_of_mem _ ha2))]

theorem ArgParser.mk_eta (p : ArgParser) : ArgParser.mk p.args p.subcommands = p := by
  cases p
  rfl

/-! Theorems settling the claims. -/

/-- Claim C1, counterexample: with the parent grammar
`subcommand("build", buildChild)` and the tokens
`["prog","--verbose","build","--target","x"]`, the result of `parse` is NOT
`buildChild.parse(["build","--target","x"])` — the source recurses with
`args[1..]` (the slice after the skipped index 0), not with the slice
starting at the subcommand token, so the child sees `"build"` as a
positional. -/
theorem subcommandSliceCounterexample :
    ArgParser.parse buildParent ["prog", "--verbose", "build", "--target", "x"] ≠
    ArgParser.parse buildChild ["build", "--target", "x"] := by decide

/-- Claim C1, amended: on matching a subcommand token, `parse` returns the
result of the child applied to `args[1..]` — the slice starting just after
the skipped index 0 of the parent input, whatever the position of the
subcommand token.  For the example, the result equals
`buildChild.parse(["--verbose","build","--target","x"])`; everything the
parent collected is still discarded. -/
theorem subcommandSliceAmended :
    ArgParser.parse buildParent ["prog", "--verbose", "build", "--target", "x"] =
      ArgParser.parse buildChild ["--verbose", "build", "--target", "x"] ∧
    ∀ (p c : ArgParser) (x : String) (t : List String),
      parseLoop p t.length t [] [] [] = .sub c →
      ArgParser.parse p (x :: t) = ArgParser.parse c t := by
  refine ⟨by decide, fun p c x t h => ?_⟩
  simp only [ArgParser.parse, h]

theorem subcommandSliceWitness :
    ArgParser.parse buildParent ["prog", "build"] = ArgParser.parse buildChild ["build"] :=
  subcommandSliceAmended.2 buildParent buildChild "prog" ["build"] rfl

/-- Claim C2, counterexample: the grammar `vGram` registers a required
argument with `takes_value = false`, yet `parse` fails with
`MissingRequiredArgument` for it even though the flag appeared in the
input — the finalization loop does not consult `takes_value`. -/
theorem requiredFlagCounterexample :
    (∃ a ∈ vGram.args, a.required = true ∧ a.takes_value = false) ∧
    ArgParser.parse vGram ["prog", "-v"] = .error (.missingRequiredArgument "v") := by decide

/-- Claim C2, amended: every argument with `required = true` participates in
the missing-required check regardless of `takes_value`: whenever `parse`
succeeds, every required argument of the grammar node that produced the
result has an entry in `values` (supplied or substituted default). -/
theorem parseRequiredParticipates (p : ArgParser) (T : List String) (m : ArgMatches)
    (h : ArgParser.parse p T = .ok m) :
    ∃ q, Descendant p q ∧ ∀ a ∈ q.args, a.required = true →
      (lookupKV a.name m.values).isSome = true := by
  obtain ⟨q, toks, values, flags, pos, hd, hs, hp, hf⟩ := parse_ok_elim T p m h
  refine ⟨q, hd, fun a ha hreq => ?_⟩
  unfold finishParse at hf
  split at hf
  · exact absurd hf (by simp)
  · rename_i v2 hfin
    simp only [Except.ok.injEq] at hf
    subst hf
    exact finalizeArgs_required q.args values v2 hfin a ha hreq

theorem parseRequiredParticipatesWitness :
    ∃ q, Descendant reqGram q ∧ ∀ a ∈ q.args, a.required = true →
      (lookupKV a.name (ArgMatches.mk [("o", "val")] [] []).values).isSome = true :=
  parseRequiredParticipates reqGram ["prog", "--o", "val"] ⟨[("o", "val")], [], []⟩ (by decide)

/-- Claim C3, counterexample: in the grammar `dGram` the argument named
`"v"` has `takes_value = false`, yet the returned `values` map has an entry
for it — default substitution does not require `takes_value`. -/
theorem defaultFlagCounterexample :
    (∃ a ∈ dGram.args, a.name = "v" ∧ a.takes_value = false) ∧
    ArgParser.parse dGram ["prog"] = .ok ⟨[("v", "d")], [], []⟩ ∧
    (lookupKV "v" [("v", "d")]).isSome = true := by decide

/-- Claim C3, amended: every entry of the returned `flags` map belongs to a
registered argument with `takes_value = false` (so a valued argument never
appears in `flags`), and every entry of the returned `values` map belongs
to a registered argument that either takes a value or is required and
carries a default — a non-valued argument can gain a `values` entry through
default substitution, which fires whenever the argument is required and
missing, regardless of `takes_value`. -/
theorem parseEntrySources (p : ArgParser) (T : List String) (m : ArgMatches)
    (h : ArgParser.parse p T = .ok m) :
    ∃ q, Descendant p q ∧
      (∀ k, (lookupKV k m.flags).isSome = true →
        ∃ a ∈ q.args, a.name = k ∧ a.takes_value = false) ∧
      (∀ k, (lookupKV k m.values).isSome = true →
        ∃ a ∈ q.args, a.name = k ∧
          (a.takes_value = true ∨ a.required = true ∧ a.default.isSome = true)) := by
  obtain ⟨q, toks, values, flags, pos, hd, hs, hp, hf⟩ := parse_ok_elim T p m h
  obtain ⟨hv, hfl, _⟩ := parseLoop_inv q toks.length toks [] [] [] values flags pos hp
  unfold finishParse at hf
  split at hf
  · exact absurd hf (by simp)
  · rename_i v2 hfin
    simp only [Except.ok.injEq] at hf
    subst hf
    refine ⟨q, hd, fun k hk => ?_, fun k hk => ?_⟩
    · rcases hfl k hk with hin | hex
      · simp [lookupKV] at hin
      · obtain ⟨a, ha, he, htv⟩ := hex
        exact ⟨a, ha, he, htv⟩
    · rcases finalizeArgs_inv q.args values v2 hfin k hk with hin | hex
      · rcases hv k hin with hin2 | hex2
        · simp [lookupKV] at hin2
        · obtain ⟨a, ha, he, htv⟩ := hex2
          exact ⟨a, ha, he, .inl htv⟩
      · obtain ⟨a, ha, he, hr, hdef⟩ := hex
        exact ⟨a, ha, he, .inr ⟨hr, hdef⟩⟩

theorem parseEntrySourcesWitness :
    ∃ q, Descendant dGram q ∧
      (∀ k, (lookupKV k (ArgMatches.mk [("v", "d")] [] []).flags).isSome = true →
        ∃ a ∈ q.args, a.name = k ∧ a.takes_value = false) ∧
      (∀ k, (lookupKV k (ArgMatches.mk [("v", "d")] [] []).values).isSome = true →
        ∃ a ∈ q.args, a.name = k ∧
          (a.takes_value = true ∨ a.required = true ∧ a.default.isSome = true)) :=
  parseEntrySources dGram ["prog"] ⟨[("v", "d")], [], []⟩ (by decide)

/-- Claim C4: a value-taking option (long or short) whose token is the last
of the input is silently skipped — no value is stored, no validator runs,
no error is raised.  For the long form the walk simply terminates with the
accumulators unchanged; for a short-cluster character the remaining cluster
characters are still processed. -/
theorem valuedOptionAtEndSkipped :
    (∀ (p : ArgParser) (n : Nat) (tok : String) (values : List (String × String))
       (flags : List (String × Bool)) (pos : List String) (a : Arg),
      strStarts tok "--" = true → findLong p.args (strDrop tok 2) = some a →
      a.takes_value = true →
      parseLoop p (n + 1) [tok] values flags pos = .done values flags pos) ∧
    (∀ (pargs : List Arg) (c : Char) (cs : List Char) (values : List (String × String))
       (flags : List (String × Bool)) (a : Arg),
      findShort pargs c = some a → a.takes_value = true →
      clusterLoop pargs (c :: cs) [] values flags = clusterLoop pargs cs [] values flags) := by
  constructor
  · intro p n tok values flags pos a h1 h2 h3
    simp [parseLoop, h1, h2, h3]
  · intro pargs c cs values flags a h1 h2
    simp [clusterLoop, h1, h2]

theorem valuedOptionAtEndSkippedWitness :
    parseLoop longGram 1 ["--o"] [] [] [] = .done [] [] [] ∧
    clusterLoop xyGram.args ['x', 'y'] [] [] [] = clusterLoop xyGram.args ['y'] [] [] [] :=
  ⟨valuedOptionAtEndSkipped.1 longGram 0 "--o" [] [] []
      ⟨"o", none, some "o", true, false, none, none⟩ rfl rfl rfl,
   valuedOptionAtEndSkipped.2 xyGram.args 'x' ['y'] [] []
      ⟨"x", some 'x', none, true, false, none, none⟩ rfl rfl⟩

/-- Claim C5: in a short cluster, each character is looked up independently;
a matched value-taking character consumes the next whole argv token (not
the remaining cluster characters) as its value, and the remaining cluster
characters are still processed in the same pass: for every string `v`,
parsing `["prog","-xy",v]` against `xyGram` stores `v` as the value of `x`,
sets the flag `y`, and leaves no positionals. -/
theorem shortClusterNextToken (v : String) :
    ArgParser.parse xyGram ["prog", "-xy", v] = .ok ⟨[("x", v)], [("y", true)], []⟩ := rfl

/-- Claim C6: an unrecognized option token contributes nothing — a two-dash
token matching no registered long alias is skipped with all accumulators
and the remaining token stream unchanged, and a cluster character matching
no registered short alias is likewise skipped. -/
theorem unrecognizedOptionIgnored :
    (∀ (p : ArgParser) (n : Nat) (tok : String) (rest : List String)
       (values : List (String × String)) (flags : List (String × Bool)) (pos : List String),
      strStarts tok "--" = true → findLong p.args (strDrop tok 2) = none →
      parseLoop p (n + 1) (tok :: rest) values flags pos = parseLoop p n rest values flags pos) ∧
    (∀ (pargs : List Arg) (c : Char) (cs : List Char) (rest : List String)
       (values : List (String × String)) (flags : List (String × Bool)),
      findShort pargs c = none →
      clusterLoop pargs (c :: cs) rest values flags = clusterLoop pargs cs rest values flags) := by
  constructor
  · intro p n tok rest values flags pos h1 h2
    simp [parseLoop, h1, h2]
  · intro pargs c cs rest values flags h
    simp [clusterLoop, h]

theorem unrecognizedOptionIgnoredWitness :
    parseLoop ArgParser.new 2 ["--nope", "z"] [] [] [] = parseLoop ArgParser.new 1 ["z"] [] [] [] ∧
    clusterLoop [] ['q'] ["z"] [] [] = clusterLoop [] [] ["z"] [] [] :=
  ⟨unrecognizedOptionIgnored.1 ArgParser.new 1 "--nope" ["z"] [] [] [] rfl rfl,
   unrecognizedOptionIgnored.2 [] 'q' [] ["z"] [] [] rfl⟩

/-- Claim C7: every configuration operation among `short`, `long`,
`takes_value`, `required`, `default` and `validator` that references a name
not previously registered via `arg` is a silent no-op: it returns the
parser unchanged (same argument list, same subcommand mapping). -/
theorem configUnregisteredNoop (p : ArgParser) (name : String) (c : Char) (s d : String)
    (f : String → Bool) (h : ∀ a ∈ p.args, a.name ≠ name) :
    p.short name c = p ∧ p.long name s = p ∧ p.takes_value name = p ∧
    p.required name = p ∧ p.default name d = p ∧ p.validator name f = p := by
  refine ⟨?_, ?_, ?_, ?_, ?_, ?_⟩ <;>
    · show ArgParser.mk (updateFirst name _ p.args) p.subcommands = p
      rw [updateFirst_noop name _ p.args h, ArgParser.mk_eta]

theorem configUnregisteredNoopWitness :
    (ArgParser.new.arg "x").short "y" 'c' = ArgParser.new.arg "x" ∧
    (ArgParser.new.arg "x").long "y" "s" = ArgParser.new.arg "x" ∧
    (ArgParser.new.arg "x").takes_value "y" = ArgParser.new.arg "x" ∧
    (ArgParser.new.arg "x").required "y" = ArgParser.new.arg "x" ∧
    (ArgParser.new.arg "x").default "y" "d" = ArgParser.new.arg "x" ∧
    (ArgParser.new.arg "x").validator "y" (fun _ => true) = ArgParser.new.arg "x" :=
  configUnregisteredNoop (ArgParser.new.arg "x") "y" 'c' "s" "d" (fun _ => true) (by decide)

/-- Claim C8: `parse` is deterministic — invoked on equivalent (equal)
grammars with the identical token list containing no recognized subcommand
token, it produces identical results. -/
theorem parseDeterministic (G G2 : ArgParser) (T : List String) (h : G = G2)
    (hs : ∀ tok ∈ T, (lookupKV tok G.subcommands).isNone = true) :
    ArgParser.parse G T = ArgParser.parse G2 T := by
  rw [h]

theorem parseDeterministicWitness :
    ArgParser.parse xyGram ["prog", "a"] = ArgParser.parse xyGram ["prog", "a"] :=
  parseDeterministic xyGram xyGram ["prog", "a"] rfl (by decide)

/-- Claim C9: the positionals of a successful parse are exactly the tokens
the specification classifies as positionals, in input order.  The result
comes from one grammar node `q` of the tree (reached by the subcommand
chain) working on a suffix `toks` of the input; its positionals are EQUAL
to `specPositionals` — the spec-side classifier that walks the token slice
excluding long options, short clusters, consumed option values and the
matched subcommand token, and keeps everything else in encounter order.
In addition the positionals form a sublist (order-preserving selection) of
the whole input, and none of them is dash-prefixed or a registered
subcommand name of `q`. -/
theorem parsePositionalsOrdered (p : ArgParser) (T : List String) (m : ArgMatches)
    (h : ArgParser.parse p T = .ok m) :
    m.positionals.Sublist T ∧
    ∃ q toks, Descendant p q ∧ toks.IsSuffix T ∧
      m.positionals = specPositionals q.args q.subcommands toks.length toks ∧
      ∀ x ∈ m.positionals, strStarts x "-" = false ∧ lookupKV x q.subcommands = none := by
  obtain ⟨q, toks, values, flags, pos, hd, hs, hp, hf⟩ := parse_ok_elim T p m h
  obtain ⟨_, _, l, hl1, hl2, hl3⟩ := parseLoop_inv q toks.length toks [] [] [] values flags pos hp
  have hexact := parseLoop_pos_exact q toks.length toks [] [] [] values flags pos hp
  unfold finishParse at hf
  split at hf
  · exact absurd hf (by simp)
  · rename_i v2 hfin
    simp only [Except.ok.injEq] at hf
    subst hf
    simp only [List.nil_append] at hl1 hexact
    subst hl1
    exact ⟨hl2.trans hs.sublist, q, toks, hd, hs, hexact, hl3⟩

theorem parsePositionalsOrderedWitness :
    (ArgMatches.mk [("x", "V")] [("y", true)] ["a", "b"]).positionals.Sublist
      ["prog", "a", "-xy", "V", "b"] ∧
    ∃ q toks, Descendant xyGram q ∧ toks.IsSuffix ["prog", "a", "-xy", "V", "b"] ∧
      (ArgMatches.mk [("x", "V")] [("y", true)] ["a", "b"]).positionals =
        specPositionals q.args q.subcommands toks.length toks ∧
      ∀ x ∈ (ArgMatches.mk [("x", "V")] [("y", true)] ["a", "b"]).positionals,
        strStarts x "-" = false ∧ lookupKV x q.subcommands = none :=
  parsePositionalsOrdered xyGram ["prog", "a", "-xy", "V", "b"]
    ⟨[("x", "V")], [("y", true)], ["a", "b"]⟩ (by decide)

/-- Claim C10: a token consisting of the single dash character is a short
cluster with zero option characters — it contributes nothing to the result
and consumes no following token. -/
theorem singleDashIgnored (p : ArgParser) (n : Nat) (rest : List String)
    (values : List (String × String)) (flags : List (String × Bool)) (pos : List String) :
    parseLoop p (n + 1) ("-" :: rest) values flags pos = parseLoop p n rest values flags pos := rfl
